import Mathlib

/-!
Shallow embedding of the `spatialstats` particle-correlation pipeline
(`spatialstats/particles/particle_correlations.py` and
`spatialstats/particles/particle_cloud.py`) over the real numbers,
together with theorems settling the specification claims.

Conventions of the embedding:
* float arithmetic is modelled by exact real arithmetic (`ℝ`);
* numpy arrays are modelled by `List ℝ` / `List (List ℝ)`;
* a float division whose divisor is zero produces NaN in the source;
  where a claim is about that very behaviour the embedding returns
  `Option`/`Except` (`none` marks the NaN-producing path), otherwise
  Lean's `x / 0 = 0` convention is used and documented at the definition;
* the external k-d tree (`scipy.spatial.cKDTree.query_pairs`) is a
  parameter of the pipeline; theorems assume only its documented output
  shape (unordered index pairs `i < j`, no duplicates).
-/

noncomputable section

namespace SpatialStats

/-- `_dot(a, b)` from particle_correlations.py: elementwise product summed
(the python loop runs over `a.size`; in every call site both vectors have
the same length, which `zipWith` mirrors). -/
def ldot (a b : List ℝ) : ℝ := (List.zipWith (fun x y => x * y) a b).sum

/-- `_norm(x)` from particle_correlations.py (`np.linalg.norm` in
particle_cloud.py computes the same 2-norm): `sqrt(dot(x, x))`. -/
def lnorm (a : List ℝ) : ℝ := Real.sqrt (ldot a a)

/-- Elementwise difference of two coordinate vectors (`r_j - r_i`). -/
def lsub (a b : List ℝ) : List ℝ := List.zipWith (fun x y => x - y) a b

/-- `_matvec(A, x)` / `R @ r_ij`: matrix-vector product, rows as lists. -/
def matvecL (A : List (List ℝ)) (x : List ℝ) : List ℝ :=
  A.map (fun row => ldot row x)

/-- `_closest_point1d(target, positions)` (identical in both source files):
`np.argmin` over the absolute distances, returning the value at the first
index attaining the minimum.  The fold replaces the current best only on a
strictly smaller distance, which is exactly numpy's first-minimum rule. -/
def closest_point1d (t : ℝ) : List ℝ → ℝ
  | [] => 0
  | p :: ps => ps.foldl (fun best x => if |x - t| < |best - t| then x else best) p

/-- `_closest_image(target, source, boxsize)` (identical in both source
files): per axis, the member of `[source, source - side, source + side]`
closest to the target coordinate. -/
def closest_image : List ℝ → List ℝ → List ℝ → List ℝ
  | t :: ts, s :: ss, b :: bs =>
      closest_point1d t [s, s - b, s + b] :: closest_image ts ss bs
  | _, _, _ => []

/-- The displacement step shared by `_get_displacements` in both source
files: `r_ij = r_j - r_i`, replaced by `image - r_i` when the raw norm
reaches `rmax`. -/
def pairDisplacement (r_i r_j boxsize : List ℝ) (rmax : ℝ) : List ℝ :=
  let r_ij := lsub r_j r_i
  if lnorm r_ij ≥ rmax then lsub (closest_image r_i r_j boxsize) r_i else r_ij

/-- `_get_volume(count, r, phi, theta, ndim)`, identical in both source
files.  The `count` array is received but never read; it is kept as a
parameter so that independence from the particle data is a statement about
this very definition.  `dr = (r[n+1]**ndim - r[n]**ndim)/ndim`,
`dphi = phi[m+1] - phi[m]`, and the polar factor
`cos(theta[l]) - cos(theta[l+1])` is multiplied in exactly when
`ndim == 3`. -/
def get_volume {α : Type} (count : α) (r phi theta : ℕ → ℝ) (ndim : ℕ)
    (n m l : ℕ) : ℝ :=
  let dr : ℝ := (r (n + 1) ^ ndim - r n ^ ndim) / (ndim : ℝ)
  let dphi : ℝ := phi (m + 1) - phi m
  let v := dphi * dr
  if ndim = 3 then v * (Real.cos (theta l) - Real.cos (theta (l + 1))) else v

/-- C1: the volume element of cell `(n, m, l)` is the product of the exact
radial-shell factor `(r_{n+1}^d - r_n^d)/d` and the azimuthal width
`phi_{m+1} - phi_m`, additionally multiplied by the solid-angle weight
`cos(theta_l) - cos(theta_{l+1})` exactly when `d = 3`; no other factor
enters, and the result does not depend on the particle-data (`count`)
argument at all. -/
theorem get_volume_exact {α : Type} (c1 c2 : α) (r phi theta : ℕ → ℝ)
    (ndim : ℕ) (n m l : ℕ) :
    get_volume c1 r phi theta ndim n m l =
      ((r (n + 1) ^ ndim - r n ^ ndim) / (ndim : ℝ)) * (phi (m + 1) - phi m) *
        (if ndim = 3 then Real.cos (theta l) - Real.cos (theta (l + 1)) else 1) ∧
    get_volume c1 r phi theta ndim n m l = get_volume c2 r phi theta ndim n m l := by
  constructor
  · unfold get_volume
    by_cases h : ndim = 3
    · rw [if_pos h, if_pos h]; ring
    · rw [if_neg h, if_neg h]; ring
  · rfl

/-- The fold underlying `closest_point1d` only ever returns one of the
candidate values. -/
lemma closest_fold_mem (t : ℝ) :
    ∀ (ps : List ℝ) (b : ℝ),
      ps.foldl (fun best x => if |x - t| < |best - t| then x else best) b ∈ b :: ps := by
  intro ps
  induction ps with
  | nil => intro b; simp
  | cons x ps ih =>
      intro b
      simp only [List.foldl_cons]
      by_cases hc : |x - t| < |b - t|
      · rw [if_pos hc]
        exact List.mem_cons.mpr (Or.inr (ih x))
      · rw [if_neg hc]
        rcases List.mem_cons.mp (ih b) with h1 | h1
        · exact List.mem_cons.mpr (Or.inl h1)
        · exact List.mem_cons.mpr (Or.inr (List.mem_cons.mpr (Or.inr h1)))

/-- The fold underlying `closest_point1d` minimizes the absolute distance
to the target over all candidates (numpy's `argmin`). -/
lemma closest_fold_min (t : ℝ) :
    ∀ (ps : List ℝ) (b : ℝ) (y : ℝ), y ∈ b :: ps →
      |ps.foldl (fun best x => if |x - t| < |best - t| then x else best) b - t| ≤ |y - t| := by
  intro ps
  induction ps with
  | nil =>
      intro b y hy
      rcases List.mem_cons.mp hy with h | h
      · subst h; simp
      · simp at h
  | cons x ps ih =>
      intro b y hy
      simp only [List.foldl_cons]
      have hstep : |(if |x - t| < |b - t| then x else b) - t| ≤ |b - t| ∧
          |(if |x - t| < |b - t| then x else b) - t| ≤ |x - t| := by
        by_cases hc : |x - t| < |b - t|
        · rw [if_pos hc]; exact ⟨le_of_lt hc, le_refl _⟩
        · rw [if_neg hc]; exact ⟨le_refl _, le_of_not_lt hc⟩
      have hhead := ih (if |x - t| < |b - t| then x else b)
        (if |x - t| < |b - t| then x else b) (List.mem_cons_self _ _)
      rcases List.mem_cons.mp hy with h | h
      · subst h; exact le_trans hhead hstep.1
      · rcases List.mem_cons.mp h with h2 | h2
        · subst h2; exact le_trans hhead hstep.2
        · exact ih _ y (List.mem_cons.mpr (Or.inr h2))

lemma closest_point1d_mem (t p : ℝ) (ps : List ℝ) :
    closest_point1d t (p :: ps) ∈ p :: ps :=
  closest_fold_mem t ps p

lemma closest_point1d_min (t p : ℝ) (ps : List ℝ) :
    ∀ y ∈ p :: ps, |closest_point1d t (p :: ps) - t| ≤ |y - t| :=
  fun y hy => closest_fold_min t ps p y hy

/-- Per-axis description of `closest_image`. -/
lemma closest_image_getD :
    ∀ (ts ss bs : List ℝ) (k : ℕ), k < ts.length → k < ss.length → k < bs.length →
      (closest_image ts ss bs).getD k 0 =
        closest_point1d (ts.getD k 0)
          [ss.getD k 0, ss.getD k 0 - bs.getD k 0, ss.getD k 0 + bs.getD k 0] := by
  intro ts
  induction ts with
  | nil => intro ss bs k h1; simp at h1
  | cons t ts ih =>
      intro ss bs k h1 h2 h3
      cases ss with
      | nil => simp at h2
      | cons s ss =>
          cases bs with
          | nil => simp at h3
          | cons b bs =>
              cases k with
              | zero => simp [closest_image]
              | succ k =>
                  simp only [closest_image, List.getD_cons_succ]
                  exact ih ss bs k (Nat.lt_of_succ_lt_succ h1)
                    (Nat.lt_of_succ_lt_succ h2) (Nat.lt_of_succ_lt_succ h3)

/-- C3: the displacement used for binning is `r_j - r_i` unchanged whenever
its norm is `< rmax`; whenever that norm is `≥ rmax` it is replaced by
`image - r_i`, where on each axis independently `image` is whichever of
`{source, source - side, source + side}` minimizes the absolute difference
to the target coordinate. -/
theorem displacement_min_image (r_i r_j boxsize : List ℝ) (rmax : ℝ) :
    (lnorm (lsub r_j r_i) < rmax →
      pairDisplacement r_i r_j boxsize rmax = lsub r_j r_i) ∧
    (lnorm (lsub r_j r_i) ≥ rmax →
      pairDisplacement r_i r_j boxsize rmax =
        lsub (closest_image r_i r_j boxsize) r_i) ∧
    (∀ k, k < r_i.length → k < r_j.length → k < boxsize.length →
      ((closest_image r_i r_j boxsize).getD k 0 ∈
        [r_j.getD k 0, r_j.getD k 0 - boxsize.getD k 0,
         r_j.getD k 0 + boxsize.getD k 0] ∧
      ∀ x ∈ [r_j.getD k 0, r_j.getD k 0 - boxsize.getD k 0,
              r_j.getD k 0 + boxsize.getD k 0],
        |(closest_image r_i r_j boxsize).getD k 0 - r_i.getD k 0| ≤
          |x - r_i.getD k 0|)) := by
  refine ⟨fun h => ?_, fun h => ?_, fun k h1 h2 h3 => ?_⟩
  · unfold pairDisplacement
    rw [if_neg (not_le.mpr h)]
  · unfold pairDisplacement
    rw [if_pos h]
  · rw [closest_image_getD r_i r_j boxsize k h1 h2 h3]
    exact ⟨closest_point1d_mem _ _ _, closest_point1d_min _ _ _⟩

/-- Witness for `displacement_min_image` at a concrete input: the pair
`r_i = (0,0)`, `r_j = (1,0)` in a `10 × 10` box with `rmax = 2` keeps its
raw displacement. -/
theorem displacement_min_image_witness :
    lnorm (lsub [1, 0] [0, 0]) < 2 ∧
      pairDisplacement [0, 0] [1, 0] [10, 10] 2 = lsub [1, 0] [0, 0] := by
  have hn : lnorm (lsub [(1 : ℝ), 0] [0, 0]) < 2 := by
    unfold lnorm lsub ldot
    norm_num [Real.sqrt_one]
  exact ⟨hn, (displacement_min_image [0, 0] [1, 0] [10, 10] 2).1 hn⟩

namespace ParticleCorrelations

/-- Identity, scalar multiple, sum and product of list-of-rows matrices,
as used by `_rotation_matrix` (`np.eye(3)`, `sin*K`, `+`, `_matmul`:
`C[i,j] = dot(A[i,:], B[:,j])`). -/
def eye3 : List (List ℝ) := [[1, 0, 0], [0, 1, 0], [0, 0, 1]]

def smulM (c : ℝ) (A : List (List ℝ)) : List (List ℝ) :=
  A.map (fun row => row.map (fun x => c * x))

def matAddL (A B : List (List ℝ)) : List (List ℝ) :=
  List.zipWith (fun ra rb => List.zipWith (fun x y => x + y) ra rb) A B

def matMulL (A B : List (List ℝ)) : List (List ℝ) :=
  A.map (fun row =>
    (List.range row.length).map (fun j => ldot row (B.map (fun br => br.getD j 0))))

/-- `_rotation_matrix(p)` from particle_correlations.py.
`cos = p[-1]`, `sin = sin(arccos(p[-1]))`.  2D: `[[cos,-sin],[sin,cos]]`.
3D: Rodrigues formula `R = I + sin*K + (1-cos)*K@K` about
`k = [p[1], -p[0], 0] / norm(k)`.  The source divides `k` by its norm with
no branch; on the degenerate axis (`p` along ±z) the float division is
`0/0 = NaN`.  Here Lean's `x / 0 = 0` convention makes that path return
the identity instead; `rotation_matrix_div0` below records the
division-by-zero explicitly. -/
def rotation_matrix (p : List ℝ) : List (List ℝ) :=
  let cosv := p.getLastD 0
  let sinv := Real.sin (Real.arccos cosv)
  if p.length = 2 then
    [[cosv, -sinv], [sinv, cosv]]
  else
    let k0 : List ℝ := [p.getD 1 0, -(p.getD 0 0), 0]
    let kn := lnorm k0
    let k := k0.map (fun x => x / kn)
    let K : List (List ℝ) :=
      [[0, -(k.getD 2 0), k.getD 1 0],
       [k.getD 2 0, 0, -(k.getD 0 0)],
       [-(k.getD 1 0), k.getD 0 0, 0]]
    matAddL (matAddL eye3 (smulM sinv K)) (smulM (1 - cosv) (matMulL K K))

/-- The 3D branch of `_rotation_matrix` with the float division of the
rotation axis by its norm made explicit: `none` marks the path on which
`k /= _norm(k)` divides by zero and floods `R` with NaN entries. -/
def rotation_matrix_div0 (p : List ℝ) : Option (List (List ℝ)) :=
  if p.length = 2 then some (rotation_matrix p)
  else if lnorm [p.getD 1 0, -(p.getD 0 0), 0] = 0 then none
  else some (rotation_matrix p)

end ParticleCorrelations

namespace ParticleCloud

/-- The rotation built inline in `_get_displacements` of particle_cloud.py:
`angle = arccos(p[-1])`, `c, s = cos(angle), sin(angle)`;
2D: `[[c,-s],[s,c]]`; 3D: `[[c,-s,0],[s,c,0],[0,0,1]]` (a rotation about
the z-axis, not a Rodrigues rotation). -/
def rotation (ndim : ℕ) (p : List ℝ) : List (List ℝ) :=
  let angle := Real.arccos (p.getLastD 0)
  let c := Real.cos angle
  let s := Real.sin angle
  if ndim = 2 then [[c, -s], [s, c]]
  else [[c, -s, 0], [s, c, 0], [0, 0, 1]]

end ParticleCloud

/-- C4 (falsified at a concrete input): the 2D rotation applied by both
source files maps the unit orientation `p = (-1, 0)` to `(0, -1)`, not to
the reference axis `(0, 1)`; and the 3D rotation of particle_cloud.py maps
the unit orientation `p = (1, 0, 0)` to `(0, 1, 0)`, not to `(0, 0, 1)`. -/
theorem rotation_not_aligned :
    matvecL (ParticleCorrelations.rotation_matrix [-1, 0]) [-1, 0] = [0, -1] ∧
    matvecL (ParticleCorrelations.rotation_matrix [-1, 0]) [-1, 0] ≠ [0, 1] ∧
    matvecL (ParticleCloud.rotation 3 [1, 0, 0]) [1, 0, 0] = [0, 1, 0] ∧
    matvecL (ParticleCloud.rotation 3 [1, 0, 0]) [1, 0, 0] ≠ [0, 0, 1] := by
  have h2 : matvecL (ParticleCorrelations.rotation_matrix [-1, 0]) [-1, 0] = [0, -1] := by
    unfold ParticleCorrelations.rotation_matrix matvecL ldot
    norm_num [Real.arccos_zero, Real.sin_pi_div_two]
  have h3 : matvecL (ParticleCloud.rotation 3 [1, 0, 0]) [1, 0, 0] = [0, 1, 0] := by
    unfold ParticleCloud.rotation matvecL ldot
    norm_num [Real.arccos_zero, Real.sin_pi_div_two, Real.cos_pi_div_two]
  refine ⟨h2, ?_, h3, ?_⟩
  · rw [h2]; intro h; injection h with _ h; injection h with h _; norm_num at h
  · rw [h3]; intro h; injection h with _ h; injection h with h _; norm_num at h

/-- C5 (falsified at a concrete input): with the orientation exactly equal
to the 3D reference axis `p = (0, 0, 1)`, `_rotation_matrix` divides its
rotation axis `k = p × z = (0, 0, 0)` by the zero norm — the NaN-producing
path (`none`), not an identity rotation. -/
theorem rotation_degenerate_nan :
    ParticleCorrelations.rotation_matrix_div0 [0, 0, 1] = none := by
  unfold ParticleCorrelations.rotation_matrix_div0
  norm_num [lnorm, ldot, Real.sqrt_zero]

/-- First loop of `_impose_pbc` (identical in both source files) on one
coordinate: `while p[i] < 0: p[i] = p[i] + boxsize[i]`.  The loop body only
runs for a positive side length, which the guard records so that the
recursion is well founded. -/
def wrapLow (b : ℝ) (c : ℝ) : ℝ :=
  if h : 0 < b ∧ c < 0 then wrapLow b (c + b) else c
termination_by (⌈(-c) / b⌉).toNat
decreasing_by
  rcases h with ⟨hb, hc⟩
  have hbne : b ≠ 0 := ne_of_gt hb
  have h1 : (-(c + b)) / b = (-c) / b - 1 := by field_simp; ring
  rw [h1, Int.ceil_sub_one]
  have h2 : (0 : ℝ) < (-c) / b := div_pos (by linarith) hb
  have h3 : 1 ≤ ⌈(-c) / b⌉ := Int.ceil_pos.mpr h2
  omega

/-- Second loop of `_impose_pbc` on one coordinate:
`while p[i] > boxsize[i]: p[i] = p[i] - boxsize[i]`. -/
def wrapHigh (b : ℝ) (c : ℝ) : ℝ :=
  if h : 0 < b ∧ b < c then wrapHigh b (c - b) else c
termination_by (⌈c / b⌉).toNat
decreasing_by
  rcases h with ⟨hb, hc⟩
  have hbne : b ≠ 0 := ne_of_gt hb
  have h1 : (c - b) / b = c / b - 1 := by field_simp
  rw [h1, Int.ceil_sub_one]
  have h2 : (1 : ℝ) < c / b := (one_lt_div hb).mpr hc
  have h3 : 2 ≤ ⌈c / b⌉ := by
    have := Int.lt_ceil.mpr (by exact_mod_cast h2 : ((1 : ℤ) : ℝ) < c / b)
    omega
  omega

/-- `_impose_pbc` on one coordinate: both loops in source order. -/
def impose_pbc1 (b c : ℝ) : ℝ := wrapHigh b (wrapLow b c)

lemma wrapLow_of_nonneg (b c : ℝ) (h : 0 ≤ c) : wrapLow b c = c := by
  rw [wrapLow, dif_neg]
  rintro ⟨-, hc⟩
  exact absurd h (not_le.mpr hc)

lemma wrapHigh_of_le (b c : ℝ) (h : c ≤ b) : wrapHigh b c = c := by
  rw [wrapHigh, dif_neg]
  rintro ⟨-, hc⟩
  exact absurd h (not_le.mpr hc)

lemma wrapLow_nonneg (b : ℝ) (hb : 0 < b) (c : ℝ) : 0 ≤ wrapLow b c := by
  have key : ∀ n : ℕ, ∀ c : ℝ, (⌈(-c) / b⌉).toNat ≤ n → 0 ≤ wrapLow b c := by
    intro n
    induction n with
    | zero =>
        intro c hm
        rw [wrapLow]
        split
        · next h =>
            exfalso
            have h2 : (0 : ℝ) < (-c) / b := div_pos (by linarith [h.2]) hb
            have h3 : 1 ≤ ⌈(-c) / b⌉ := Int.ceil_pos.mpr h2
            omega
        · next h =>
            push_neg at h
            exact le_of_not_lt (fun hc => absurd (h hb) (not_le.mpr hc))
    | succ n ih =>
        intro c hm
        rw [wrapLow]
        split
        · next h =>
            apply ih
            have hbne : b ≠ 0 := ne_of_gt hb
            have h1 : (-(c + b)) / b = (-c) / b - 1 := by field_simp; ring
            rw [h1, Int.ceil_sub_one]
            omega
        · next h =>
            push_neg at h
            exact le_of_not_lt (fun hc => absurd (h hb) (not_le.mpr hc))
  exact key _ c le_rfl

lemma wrapHigh_le (b : ℝ) (hb : 0 < b) (c : ℝ) : wrapHigh b c ≤ b := by
  have key : ∀ n : ℕ, ∀ c : ℝ, (⌈c / b⌉).toNat ≤ n → wrapHigh b c ≤ b := by
    intro n
    induction n with
    | zero =>
        intro c hm
        rw [wrapHigh]
        split
        · next h =>
            exfalso
            have h2 : (1 : ℝ) < c / b := (one_lt_div hb).mpr h.2
            have h3 : 1 < ⌈c / b⌉ :=
              Int.lt_ceil.mpr (by exact_mod_cast h2 : ((1 : ℤ) : ℝ) < c / b)
            omega
        · next h =>
            push_neg at h
            exact le_of_not_lt (fun hc => absurd (h hb) (not_le.mpr hc))
    | succ n ih =>
        intro c hm
        rw [wrapHigh]
        split
        · next h =>
            apply ih
            have hbne : b ≠ 0 := ne_of_gt hb
            have h1 : (c - b) / b = c / b - 1 := by field_simp
            rw [h1, Int.ceil_sub_one]
            omega
        · next h =>
            push_neg at h
            exact le_of_not_lt (fun hc => absurd (h hb) (not_le.mpr hc))
  exact key _ c le_rfl

lemma wrapHigh_nonneg (b : ℝ) (hb : 0 < b) (c : ℝ) (hc : 0 ≤ c) :
    0 ≤ wrapHigh b c := by
  have key : ∀ n : ℕ, ∀ c : ℝ, (⌈c / b⌉).toNat ≤ n → 0 ≤ c → 0 ≤ wrapHigh b c := by
    intro n
    induction n with
    | zero =>
        intro c hm h0
        rw [wrapHigh]
        split
        · next h =>
            exfalso
            have h2 : (1 : ℝ) < c / b := (one_lt_div hb).mpr h.2
            have h3 : 1 < ⌈c / b⌉ :=
              Int.lt_ceil.mpr (by exact_mod_cast h2 : ((1 : ℤ) : ℝ) < c / b)
            omega
        · next h => exact h0
    | succ n ih =>
        intro c hm h0
        rw [wrapHigh]
        split
        · next h =>
            apply ih
            · have hbne : b ≠ 0 := ne_of_gt hb
              have h1 : (c - b) / b = c / b - 1 := by field_simp
              rw [h1, Int.ceil_sub_one]
              omega
            · linarith [h.2]
        · next h => exact h0
  exact key _ c le_rfl hc

lemma wrapLow_shift (b : ℝ) (c : ℝ) : ∃ n : ℤ, wrapLow b c = c + n * b := by
  have key : ∀ m : ℕ, ∀ c : ℝ, (⌈(-c) / b⌉).toNat ≤ m → ∃ n : ℤ, wrapLow b c = c + n * b := by
    intro m
    induction m with
    | zero =>
        intro c hm
        rw [wrapLow]
        split
        · next h =>
            exfalso
            have h2 : (0 : ℝ) < (-c) / b := div_pos (by linarith [h.2]) h.1
            have h3 : 1 ≤ ⌈(-c) / b⌉ := Int.ceil_pos.mpr h2
            omega
        · next h => exact ⟨0, by ring⟩
    | succ m ih =>
        intro c hm
        rw [wrapLow]
        split
        · next h =>
            have hbne : b ≠ 0 := ne_of_gt h.1
            have h1 : (-(c + b)) / b = (-c) / b - 1 := by field_simp; ring
            obtain ⟨n, hn⟩ := ih (c + b) (by rw [h1, Int.ceil_sub_one]; omega)
            exact ⟨n + 1, by rw [hn]; push_cast; ring⟩
        · next h => exact ⟨0, by ring⟩
  exact key _ c le_rfl

lemma wrapHigh_shift (b : ℝ) (c : ℝ) : ∃ n : ℤ, wrapHigh b c = c + n * b := by
  have key : ∀ m : ℕ, ∀ c : ℝ, (⌈c / b⌉).toNat ≤ m → ∃ n : ℤ, wrapHigh b c = c + n * b := by
    intro m
    induction m with
    | zero =>
        intro c hm
        rw [wrapHigh]
        split
        · next h =>
            exfalso
            have h2 : (1 : ℝ) < c / b := (one_lt_div h.1).mpr h.2
            have h3 : 1 < ⌈c / b⌉ :=
              Int.lt_ceil.mpr (by exact_mod_cast h2 : ((1 : ℤ) : ℝ) < c / b)
            omega
        · next h => exact ⟨0, by ring⟩
    | succ m ih =>
        intro c hm
        rw [wrapHigh]
        split
        · next h =>
            have hbne : b ≠ 0 := ne_of_gt h.1
            have h1 : (c - b) / b = c / b - 1 := by field_simp
            obtain ⟨n, hn⟩ := ih (c - b) (by rw [h1, Int.ceil_sub_one]; omega)
            exact ⟨n - 1, by rw [hn]; push_cast; ring⟩
        · next h => exact ⟨0, by ring⟩
  exact key _ c le_rfl

/-- `_impose_pbc` leaves a coordinate already in `[0, boxsize]`
unchanged (both loop guards are strict). -/
lemma impose_pbc1_id (b c : ℝ) (h0 : 0 ≤ c) (h1 : c ≤ b) : impose_pbc1 b c = c := by
  unfold impose_pbc1
  rw [wrapLow_of_nonneg b c h0, wrapHigh_of_le b c h1]

/-- C9 (amended): for a positive side length the normalization of one
coordinate terminates and lands in the closed interval `[0, boxsize]` —
not `[0, boxsize)`: a component that starts exactly on the far box face
(or lands there exactly) stays at `boxsize` because both loop guards are
strict — and the result differs from the input by an integer number of
side lengths. -/
theorem impose_pbc_range (b c : ℝ) (hb : 0 < b) :
    0 ≤ impose_pbc1 b c ∧ impose_pbc1 b c ≤ b ∧
      ∃ n : ℤ, impose_pbc1 b c = c + n * b := by
  unfold impose_pbc1
  refine ⟨wrapHigh_nonneg b hb _ (wrapLow_nonneg b hb c), wrapHigh_le b hb _, ?_⟩
  obtain ⟨n1, hn1⟩ := wrapLow_shift b c
  obtain ⟨n2, hn2⟩ := wrapHigh_shift b (wrapLow b c)
  exact ⟨n1 + n2, by rw [hn2, hn1]; push_cast; ring⟩

/-- Witness for `impose_pbc_range` at `b = 1`, `c = -3/2`. -/
theorem impose_pbc_range_witness :
    (0 : ℝ) < 1 ∧
      (0 ≤ impose_pbc1 1 (-3 / 2) ∧ impose_pbc1 1 (-3 / 2) ≤ 1 ∧
        ∃ n : ℤ, impose_pbc1 1 (-3 / 2) = -3 / 2 + n * 1) :=
  ⟨by norm_num, impose_pbc_range 1 (-3 / 2) (by norm_num)⟩

/-- C9 (counterexample to the claim as stated): a coordinate that starts
exactly on a box face, `c = boxsize = 2`, is left at `2` by
`_impose_pbc`, so the claimed strict bound `c < boxsize` fails. -/
theorem impose_pbc_face_not_lt :
    impose_pbc1 2 2 = 2 ∧ ¬ impose_pbc1 2 2 < 2 := by
  have h : impose_pbc1 2 2 = 2 := impose_pbc1_id 2 2 (by norm_num) (by norm_num)
  exact ⟨h, by rw [h]; norm_num⟩

/-- `_impose_pbc` on one position row: the source loops over
`i in range(dim)` with `dim = len(boxsize)` and wraps `p[i]` in place;
components beyond `dim` are untouched. -/
def impose_pbc_vec : List ℝ → List ℝ → List ℝ
  | _, [] => []
  | [], c :: cs => c :: impose_pbc_vec [] cs
  | b :: bs, c :: cs => impose_pbc1 b c :: impose_pbc_vec bs cs

/-- `_impose_pbc(coords, boxsize)`: wraps every row of the positions
array in place.  The embedding returns the final state of the array. -/
def impose_pbc (boxsize : List ℝ) (positions : List (List ℝ)) : List (List ℝ) :=
  positions.map (impose_pbc_vec boxsize)

lemma impose_pbc_vec_id :
    ∀ (bs p : List ℝ),
      (∀ i, i < bs.length → i < p.length →
        0 ≤ p.getD i 0 ∧ p.getD i 0 ≤ bs.getD i 0) →
      impose_pbc_vec bs p = p := by
  intro bs
  induction bs with
  | nil =>
      intro p _
      induction p with
      | nil => rfl
      | cons c cs ih => simpa [impose_pbc_vec] using ih (fun i h _ => by simp at h)
  | cons b bs ih =>
      intro p hp
      cases p with
      | nil => rfl
      | cons c cs =>
          have h0 := hp 0 (by simp) (by simp)
          simp only [List.getD_cons_zero] at h0
          simp only [impose_pbc_vec, impose_pbc1_id b c h0.1 h0.2, List.cons.injEq,
            true_and]
          exact ih cs (fun i h1 h2 => by
            have := hp (i + 1) (by simpa using Nat.succ_lt_succ h1)
              (by simpa using Nat.succ_lt_succ h2)
            simpa using this)

lemma impose_pbc_id (boxsize : List ℝ) (positions : List (List ℝ))
    (h : ∀ p ∈ positions, ∀ i, i < boxsize.length → i < p.length →
      0 ≤ p.getD i 0 ∧ p.getD i 0 ≤ boxsize.getD i 0) :
    impose_pbc boxsize positions = positions := by
  unfold impose_pbc
  rw [List.map_congr_left (fun p hp => impose_pbc_vec_id boxsize p (h p hp))]
  exact List.map_id positions

/-- Doubling of the unordered k-d tree pairs.  `_get_pairs` of
particle_cloud.py lays out `pairs[:npairs] = temp` and
`pairs[npairs:] = temp[:, [1, 0]]`; the displacement loop of
particle_correlations.py enumerates the same layout
(`index = idx1 + nthreads*idx2`, the second block with the pair
reversed). -/
def double_pairs (temp : List (ℕ × ℕ)) : List (ℕ × ℕ) :=
  temp ++ temp.map (fun p => (p.2, p.1))

/-- C6: when the k-d tree reports the unordered neighbor pairs (each with
`i < j`, no duplicates — the documented `query_pairs` output), the ordered
pair list fed to displacement computation has an even number of entries
(`2 ×` the unordered count); each unordered pair contributes exactly the
two orderings, each exactly once; and no pair with `i = j` appears. -/
theorem double_pairs_spec (temp : List (ℕ × ℕ))
    (hij : ∀ p ∈ temp, p.1 < p.2) (hnd : temp.Nodup) :
    (double_pairs temp).length = 2 * temp.length ∧
    Even (double_pairs temp).length ∧
    (double_pairs temp).Nodup ∧
    (∀ p ∈ temp, p ∈ double_pairs temp ∧ (p.2, p.1) ∈ double_pairs temp) ∧
    (∀ p ∈ double_pairs temp, p.1 ≠ p.2) := by
  have hswap_inj : Function.Injective (fun p : ℕ × ℕ => (p.2, p.1)) := by
    intro a b h
    simp only [Prod.mk.injEq] at h
    exact Prod.ext h.2 h.1
  have hlen : (double_pairs temp).length = 2 * temp.length := by
    unfold double_pairs
    rw [List.length_append, List.length_map]
    omega
  refine ⟨hlen, hlen ▸ even_two_mul _, ?_, fun p hp => ?_, fun p hp => ?_⟩
  · unfold double_pairs
    rw [List.nodup_append]
    refine ⟨hnd, hnd.map hswap_inj, ?_⟩
    intro p hp hq
    obtain ⟨a, ha, hae⟩ := List.mem_map.mp hq
    have h1 := hij p hp
    have h2 := hij a ha
    rw [← hae] at h1
    exact absurd (lt_trans h1 h2) (lt_irrefl _)
  · constructor
    · exact List.mem_append_left _ hp
    · exact List.mem_append_right _ (List.mem_map.mpr ⟨p, hp, rfl⟩)
  · unfold double_pairs at hp
    rcases List.mem_append.mp hp with h | h
    · exact Nat.ne_of_lt (hij p h)
    · obtain ⟨q, hq, hqe⟩ := List.mem_map.mp h
      rw [← hqe]
      exact Nat.ne_of_gt (hij q hq)

/-- Witness for `double_pairs_spec` at the concrete unordered pair list
`[(0,1), (1,2)]`. -/
theorem double_pairs_spec_witness :
    (∀ p ∈ [((0 : ℕ), (1 : ℕ)), (1, 2)], p.1 < p.2) ∧
    ((double_pairs [(0, 1), (1, 2)]).length = 2 * [((0 : ℕ), (1 : ℕ)), (1, 2)].length ∧
      Even (double_pairs [(0, 1), (1, 2)]).length ∧
      (double_pairs [(0, 1), (1, 2)]).Nodup ∧
      (∀ p ∈ [((0 : ℕ), (1 : ℕ)), (1, 2)], p ∈ double_pairs [(0, 1), (1, 2)] ∧
        (p.2, p.1) ∈ double_pairs [(0, 1), (1, 2)]) ∧
      (∀ p ∈ double_pairs [(0, 1), (1, 2)], p.1 ≠ p.2)) :=
  ⟨by decide, double_pairs_spec [(0, 1), (1, 2)] (by decide) (by decide)⟩

namespace ParticleCorrelations

/-- `fourier_corr(gr, r, N, boxsize, q)` from particle_correlations.py.
`simpsI` models `scipy.integrate.simps(f, r)` and `jv0` models
`scipy.special.jv(0, ·)`; both are external collaborators and enter as
parameters.  The source line `g = gr-1 if spatial else gr` tests the
imported module object `scipy.spatial`, which is always truthy, so
`g = gr - 1` unconditionally. -/
def fourier_corr (simpsI : List ℝ → List ℝ → ℝ) (jv0 : ℝ → ℝ)
    (gr r : List ℝ) (N : ℝ) (boxsize : List ℝ) (q : List ℝ) :
    Except String (List ℝ × List ℝ) :=
  let ndim := boxsize.length
  if ndim ≠ 2 ∧ ndim ≠ 3 then Except.error "Dimension of space must be 2 or 3"
  else
    let rho := N / boxsize.prod
    let g := gr.map (fun x => x - 1)
    let S : ℝ → ℝ := fun qv =>
      if ndim = 3 then
        1 + 4 * Real.pi * rho *
          simpsI (List.zipWith (fun rv gv => Real.sin (qv * rv) * rv * gv) r g) r / qv
      else
        1 + 2 * Real.pi * rho *
          simpsI (List.zipWith (fun rv gv => jv0 (qv * rv) * rv * gv) r g) r
    Except.ok (q.map S, q)

end ParticleCorrelations

namespace ParticleCloud

/-- `structure_factor(gr, r, N, boxsize, q)` from particle_cloud.py: same
transform with `gr - 1` written inline (`f = np.sin(q*r)*r*(gr-1)` and
`f = jv(0, q*r)*r*(gr-1)`). -/
def structure_factor (simpsI : List ℝ → List ℝ → ℝ) (jv0 : ℝ → ℝ)
    (gr r : List ℝ) (N : ℝ) (boxsize : List ℝ) (q : List ℝ) :
    Except String (List ℝ × List ℝ) :=
  let ndim := boxsize.length
  if ndim ≠ 2 ∧ ndim ≠ 3 then Except.error "Dimension of space must be 2 or 3"
  else
    let rho := N / boxsize.prod
    let S : ℝ → ℝ := fun qv =>
      if ndim = 3 then
        1 + 4 * Real.pi * rho *
          simpsI (List.zipWith (fun rv gv => Real.sin (qv * rv) * rv * (gv - 1)) r gr) r / qv
      else
        1 + 2 * Real.pi * rho *
          simpsI (List.zipWith (fun rv gv => jv0 (qv * rv) * rv * (gv - 1)) r gr) r
    Except.ok (q.map S, q)

end ParticleCloud

/-- The spec's formula for one wavenumber, written from the spec's words:
`S(q) = 1 + 4πρ/q · Simpson(r·sin(qr)·G(r), r)` in 3D and
`S(q) = 1 + 2πρ · Simpson(r·J₀(qr)·G(r), r)` in 2D, with `G(r) = gr - 1`
and `ρ = N / V`. -/
def S_spec (simpsI : List ℝ → List ℝ → ℝ) (jv0 : ℝ → ℝ)
    (gr r : List ℝ) (N : ℝ) (boxsize : List ℝ) (qv : ℝ) : ℝ :=
  let rho := N / boxsize.prod
  let G := gr.map (fun x => x - 1)
  if boxsize.length = 3 then
    1 + (4 * Real.pi * rho / qv) *
      simpsI (List.zipWith (fun rv gv => rv * Real.sin (qv * rv) * gv) r G) r
  else
    1 + (2 * Real.pi * rho) *
      simpsI (List.zipWith (fun rv gv => rv * jv0 (qv * rv) * gv) r G) r

/-- C2: for a 2- or 3-dimensional box, both `fourier_corr` and
`structure_factor` return exactly the spec's transform at every
wavenumber, with each entry of the output aligned index-by-index with the
`q` grid (the output is the pointwise map of the spec formula over `q`,
paired with `q` itself). -/
theorem fourier_transform_spec (simpsI : List ℝ → List ℝ → ℝ) (jv0 : ℝ → ℝ)
    (gr r : List ℝ) (N : ℝ) (boxsize : List ℝ) (q : List ℝ)
    (h : boxsize.length = 2 ∨ boxsize.length = 3) :
    ParticleCorrelations.fourier_corr simpsI jv0 gr r N boxsize q =
      Except.ok (q.map (S_spec simpsI jv0 gr r N boxsize), q) ∧
    ParticleCloud.structure_factor simpsI jv0 gr r N boxsize q =
      Except.ok (q.map (S_spec simpsI jv0 gr r N boxsize), q) := by
  have hok : ¬ (boxsize.length ≠ 2 ∧ boxsize.length ≠ 3) := by
    rcases h with h | h <;> simp [h]
  have hfun : ∀ qv : ℝ,
      (if boxsize.length = 3 then
        1 + 4 * Real.pi * (N / boxsize.prod) *
          simpsI (List.zipWith (fun rv gv => Real.sin (qv * rv) * rv * gv) r
            (gr.map (fun x => x - 1))) r / qv
      else
        1 + 2 * Real.pi * (N / boxsize.prod) *
          simpsI (List.zipWith (fun rv gv => jv0 (qv * rv) * rv * gv) r
            (gr.map (fun x => x - 1))) r) =
      S_spec simpsI jv0 gr r N boxsize qv := by
    intro qv
    unfold S_spec
    by_cases h3 : boxsize.length = 3
    · rw [if_pos h3, if_pos h3]
      have hz : List.zipWith (fun rv gv => Real.sin (qv * rv) * rv * gv) r
          (gr.map (fun x => x - 1)) =
          List.zipWith (fun rv gv => rv * Real.sin (qv * rv) * gv) r
          (gr.map (fun x => x - 1)) := by
        congr 1
        funext rv gv
        ring
      rw [hz]
      ring
    · rw [if_neg h3, if_neg h3]
      have hz : List.zipWith (fun rv gv => jv0 (qv * rv) * rv * gv) r
          (gr.map (fun x => x - 1)) =
          List.zipWith (fun rv gv => rv * jv0 (qv * rv) * gv) r
          (gr.map (fun x => x - 1)) := by
        congr 1
        funext rv gv
        ring
      rw [hz]
  constructor
  · unfold ParticleCorrelations.fourier_corr
    rw [if_neg hok]
    refine congrArg Except.ok (Prod.ext ?_ rfl)
    exact List.map_congr_left (fun qv _ => hfun qv)
  · unfold ParticleCloud.structure_factor
    rw [if_neg hok]
    refine congrArg Except.ok (Prod.ext ?_ rfl)
    refine List.map_congr_left (fun qv _ => ?_)
    rw [← hfun qv]
    have hz3 : List.zipWith (fun rv gv => Real.sin (qv * rv) * rv * (gv - 1)) r gr =
        List.zipWith (fun rv gv => Real.sin (qv * rv) * rv * gv) r
          (gr.map (fun x => x - 1)) := by
      rw [List.zipWith_map_right]
    have hz2 : List.zipWith (fun rv gv => jv0 (qv * rv) * rv * (gv - 1)) r gr =
        List.zipWith (fun rv gv => jv0 (qv * rv) * rv * gv) r
          (gr.map (fun x => x - 1)) := by
      rw [List.zipWith_map_right]
    by_cases h3 : boxsize.length = 3
    · rw [if_pos h3, if_pos h3, hz3]
    · rw [if_neg h3, if_neg h3, hz2]

/-- Witness for `fourier_transform_spec` at a concrete input (a 3D box of
volume 1, one radius sample, one wavenumber, the zero quadrature). -/
theorem fourier_transform_spec_witness :
    (([1, 1, 1] : List ℝ).length = 2 ∨ ([1, 1, 1] : List ℝ).length = 3) ∧
    (ParticleCorrelations.fourier_corr (fun _ _ => 0) (fun _ => 0) [2] [1] 1 [1, 1, 1] [1] =
        Except.ok ([(1 : ℝ)].map (S_spec (fun _ _ => 0) (fun _ => 0) [2] [1] 1 [1, 1, 1]), [1]) ∧
      ParticleCloud.structure_factor (fun _ _ => 0) (fun _ => 0) [2] [1] 1 [1, 1, 1] [1] =
        Except.ok ([(1 : ℝ)].map (S_spec (fun _ _ => 0) (fun _ => 0) [2] [1] 1 [1, 1, 1]), [1])) :=
  ⟨by norm_num,
    fourier_transform_spec (fun _ _ => 0) (fun _ => 0) [2] [1] 1 [1, 1, 1] [1] (by norm_num)⟩

/-- `np.linspace(a, b, num)`: `num` evenly spaced points from `a` to `b`
inclusive (`a + (b-a)*k/(num-1)`). -/
def linspace (a b : ℝ) (num : ℕ) : List ℝ :=
  (List.range num).map (fun k => a + (b - a) * (k : ℝ) / ((num - 1 : ℕ) : ℝ))

/-- One-axis bin assignment of `np.histogramdd` for the sorted,
strictly increasing edge arrays this code passes: a value below the first
edge or above the last edge is dropped (`none`); a value exactly equal to
the last edge goes into the final bin (the final bin's right edge is
closed); otherwise the bin is `searchsorted(edges, v, side='right') - 1`,
i.e. bins are left-inclusive and right-exclusive.  For sorted edges the
`side='right'` insertion point is the number of edges `≤ v`. -/
def binIdx (edges : List ℝ) (v : ℝ) : Option ℕ :=
  if edges.length < 2 then none
  else if v < edges.headD 0 ∨ edges.getLastD 0 < v then none
  else if v = edges.getLastD 0 then some (edges.length - 2)
  else some ((edges.filter (fun e => e ≤ v)).length - 1)

/-- Multi-axis bin assignment: one `binIdx` per axis; the sample is
dropped as soon as any axis drops it. -/
def binIdxs : List (List ℝ) → List ℝ → Option (List ℕ)
  | [], [] => some []
  | es :: bs, x :: vs =>
      match binIdx es x, binIdxs bs vs with
      | some k, some ks => some (k :: ks)
      | _, _ => none
  | _, _ => none

/-- The count of `np.histogramdd` in one cell: the number of sample rows
assigned to that cell. -/
def histCount (rows : List (List ℝ)) (bins : List (List ℝ)) (cell : List ℕ) : ℕ :=
  (rows.filter (fun row => binIdxs bins row = some cell)).length

/-- Cartesian product of per-axis index ranges: the full cell grid. -/
def cellsProd : List (List ℕ) → List (List ℕ)
  | [] => [[]]
  | xs :: rest => xs.flatMap (fun x => (cellsProd rest).map (fun tl => x :: tl))

/-- All cells of the histogram grid (`edges.length - 1` bins per axis). -/
def allCells (bins : List (List ℝ)) : List (List ℕ) :=
  cellsProd (bins.map (fun es => List.range (es.length - 1)))

/-- The histogram count summed over every cell of the grid. -/
def histTotal (rows bins : List (List ℝ)) : ℕ :=
  ((allCells bins).map (histCount rows bins)).sum

lemma cellsProd_nodup :
    ∀ (Ls : List (List ℕ)), (∀ l ∈ Ls, l.Nodup) → (cellsProd Ls).Nodup := by
  intro Ls
  induction Ls with
  | nil => intro _; simp [cellsProd]
  | cons xs rest ih =>
      intro h
      unfold cellsProd
      rw [List.nodup_flatMap]
      refine ⟨fun x _ => (ih (fun l hl => h l (List.mem_cons_of_mem _ hl))).map
        (fun a b hab => by simpa using hab), ?_⟩
      have hxs := h xs (List.mem_cons_self _ _)
      refine List.Pairwise.imp ?_ hxs
      intro a b hab
      intro c hc1 hc2
      obtain ⟨t1, _, ht1⟩ := List.mem_map.mp hc1
      obtain ⟨t2, _, ht2⟩ := List.mem_map.mp hc2
      rw [← ht1] at ht2
      injection ht2 with h1 _
      exact hab h1.symm

lemma getLastD_mem : ∀ (l : List ℝ) (d : ℝ), l ≠ [] → l.getLastD d ∈ l
  | [a], _, _ => by simp
  | a :: b :: l, _, _ => by
      rw [List.getLastD_cons]
      exact List.mem_cons_of_mem _ (getLastD_mem (b :: l) a (by simp))

/-- Any assigned bin index is inside the grid. -/
lemma binIdx_lt (edges : List ℝ) (v : ℝ) (k : ℕ) (h : binIdx edges v = some k) :
    k < edges.length - 1 := by
  unfold binIdx at h
  by_cases h1 : edges.length < 2
  · rw [if_pos h1] at h
    exact absurd h (by simp)
  · rw [if_neg h1] at h
    by_cases h2 : v < edges.headD 0 ∨ edges.getLastD 0 < v
    · rw [if_pos h2] at h
      exact absurd h (by simp)
    · rw [if_neg h2] at h
      by_cases h3 : v = edges.getLastD 0
      · rw [if_pos h3] at h
        injection h with h4
        omega
      · rw [if_neg h3] at h
        injection h with h4
        push_neg at h2
        have hne : edges ≠ [] := by
          intro he
          rw [he] at h1
          simp at h1
        have hvlast : v < edges.getLastD 0 := lt_of_le_of_ne h2.2 h3
        have hmem : edges.getLastD 0 ∈ edges := getLastD_mem edges 0 hne
        have hflt : (edges.filter (fun e => e ≤ v)).length < edges.length := by
          by_cases heq : (edges.filter (fun e => e ≤ v)).length = edges.length
          · have hfe : edges.filter (fun e => e ≤ v) = edges :=
              (List.filter_sublist edges).eq_of_length heq
            have hmem2 : edges.getLastD 0 ∈ edges.filter (fun e => e ≤ v) := by
              rw [hfe]
              exact hmem
            have hle := List.of_mem_filter hmem2
            simp only [decide_eq_true_eq] at hle
            exact absurd hle (not_le.mpr hvlast)
          · exact lt_of_le_of_ne (List.length_filter_le _ _) heq
        omega

/-- A sample that gets a cell gets a cell of the grid. -/
lemma binIdxs_mem_allCells :
    ∀ (bins : List (List ℝ)) (v : List ℝ) (c : List ℕ),
      binIdxs bins v = some c → c ∈ allCells bins := by
  intro bins
  induction bins with
  | nil =>
      intro v c h
      cases v with
      | nil =>
          unfold binIdxs at h
          injection h with h1
          rw [← h1]
          simp [allCells, cellsProd]
      | cons x vs => exact absurd h (by simp [binIdxs])
  | cons es bs ih =>
      intro v c h
      cases v with
      | nil => exact absurd h (by simp [binIdxs])
      | cons x vs =>
          unfold binIdxs at h
          cases hk : binIdx es x with
          | none => rw [hk] at h; simp at h
          | some k =>
              cases hks : binIdxs bs vs with
              | none => rw [hk, hks] at h; simp at h
              | some ks =>
                  rw [hk, hks] at h
                  injection h with h1
                  rw [← h1]
                  have hac : allCells (es :: bs) =
                      (List.range (es.length - 1)).flatMap
                        (fun x => (allCells bs).map (fun tl => x :: tl)) := by
                    unfold allCells
                    rw [List.map_cons]
                    rfl
                  rw [hac, List.mem_flatMap]
                  exact ⟨k, List.mem_range.mpr (binIdx_lt es x k hk),
                    List.mem_map.mpr ⟨ks, ih vs ks hks, rfl⟩⟩

lemma sum_if_eq_zero (c0 : List ℕ) :
    ∀ (L : List (List ℕ)), c0 ∉ L →
      (L.map (fun c => if c0 = c then (1 : ℕ) else 0)).sum = 0 := by
  intro L
  induction L with
  | nil => intro _; simp
  | cons x L ih =>
      intro h
      have hx : c0 ≠ x := fun he => h (he ▸ List.mem_cons_self _ _)
      simp only [List.map_cons, List.sum_cons, if_neg hx]
      rw [ih (fun hm => h (List.mem_cons_of_mem _ hm))]

lemma sum_if_eq_one (c0 : List ℕ) :
    ∀ (L : List (List ℕ)), L.Nodup → c0 ∈ L →
      (L.map (fun c => if c0 = c then (1 : ℕ) else 0)).sum = 1 := by
  intro L
  induction L with
  | nil => intro _ h; simp at h
  | cons x L ih =>
      intro hnd hm
      rcases List.mem_cons.mp hm with h | h
      · simp only [List.map_cons, List.sum_cons, if_pos h]
        rw [sum_if_eq_zero c0 L (h ▸ (List.nodup_cons.mp hnd).1)]
      · have hx : c0 ≠ x := by
          intro he
          exact (List.nodup_cons.mp hnd).1 (he ▸ h)
        simp only [List.map_cons, List.sum_cons, if_neg hx]
        rw [ih (List.nodup_cons.mp hnd).2 h]

lemma sum_map_add (f g : List ℕ → ℕ) :
    ∀ (L : List (List ℕ)),
      (L.map (fun c => f c + g c)).sum = (L.map f).sum + (L.map g).sum := by
  intro L
  induction L with
  | nil => simp
  | cons x L ih => simp only [List.map_cons, List.sum_cons, ih]; omega

lemma histCount_cons (r : List ℝ) (rows bins : List (List ℝ)) (cell : List ℕ) :
    histCount (r :: rows) bins cell =
      (if binIdxs bins r = some cell then 1 else 0) + histCount rows bins cell := by
  unfold histCount
  by_cases h : binIdxs bins r = some cell
  · rw [List.filter_cons_of_pos (by simp [h]), List.length_cons, if_pos h]
    omega
  · rw [List.filter_cons_of_neg (by simp [h]), if_neg h]
    omega

lemma allCells_nodup (bins : List (List ℝ)) : (allCells bins).Nodup := by
  refine cellsProd_nodup _ ?_
  intro l hl
  obtain ⟨es, _, he⟩ := List.mem_map.mp hl
  rw [← he]
  exact List.nodup_range _

/-- Summing the per-cell counts over the whole grid counts exactly the
samples that are assigned to some cell (samples outside the bin ranges
are dropped). -/
lemma histTotal_counts (bins : List (List ℝ)) :
    ∀ (rows : List (List ℝ)),
      histTotal rows bins = (rows.filter (fun r => (binIdxs bins r).isSome)).length := by
  intro rows
  induction rows with
  | nil =>
      unfold histTotal
      have h0 : ∀ c ∈ allCells bins, histCount [] bins c = 0 := fun c _ => by
        simp [histCount]
      rw [List.map_congr_left h0]
      simp
  | cons r rows ih =>
      unfold histTotal
      rw [List.map_congr_left (fun c _ => histCount_cons r rows bins c), sum_map_add]
      have ht : ((allCells bins).map (histCount rows bins)).sum = histTotal rows bins := rfl
      by_cases h : (binIdxs bins r).isSome
      · obtain ⟨c0, hc0⟩ := Option.isSome_iff_exists.mp h
        have hone : ((allCells bins).map
            (fun c => if binIdxs bins r = some c then (1 : ℕ) else 0)).sum = 1 := by
          have hrw : (fun c : List ℕ => if binIdxs bins r = some c then (1 : ℕ) else 0) =
              (fun c : List ℕ => if c0 = c then (1 : ℕ) else 0) := by
            funext c
            rw [hc0]
            simp only [Option.some.injEq]
          rw [hrw]
          exact sum_if_eq_one c0 (allCells bins) (allCells_nodup bins)
            (binIdxs_mem_allCells bins r c0 hc0)
        rw [hone, ht, ih, List.filter_cons_of_pos (by simpa using h), List.length_cons]
        omega
      · have hzero : ((allCells bins).map
            (fun c => if binIdxs bins r = some c then (1 : ℕ) else 0)).sum = 0 := by
          have hrw : (fun c : List ℕ => if binIdxs bins r = some c then (1 : ℕ) else 0) =
              (fun _ : List ℕ => (0 : ℕ)) := by
            funext c
            rw [if_neg]
            intro he
            exact h (by rw [he]; rfl)
          rw [hrw]
          simp
        rw [hzero, ht, ih, List.filter_cons_of_neg (by simpa using h)]
        omega

lemma binIdx_isSome_of_range (es : List ℝ) (x : ℝ) (h2 : 2 ≤ es.length)
    (hlo : es.headD 0 ≤ x) (hhi : x ≤ es.getLastD 0) : (binIdx es x).isSome := by
  unfold binIdx
  rw [if_neg (by omega), if_neg (by push_neg; exact ⟨hlo, hhi⟩)]
  split_ifs <;> simp

lemma binIdxs_isSome_of (bins : List (List ℝ)) (v : List ℝ)
    (h : List.Forall₂ (fun es x => 2 ≤ es.length ∧
      es.headD 0 ≤ x ∧ x ≤ es.getLastD 0) bins v) :
    (binIdxs bins v).isSome := by
  induction h with
  | nil => simp [binIdxs]
  | cons hax _ ih =>
      unfold binIdxs
      obtain ⟨k, hk⟩ := Option.isSome_iff_exists.mp
        (binIdx_isSome_of_range _ _ hax.1 hax.2.1 hax.2.2)
      obtain ⟨ks, hks⟩ := Option.isSome_iff_exists.mp ih
      rw [hk, hks]
      rfl

/-- C8 (amended): for any bin configuration whose per-axis ranges cover
every sample (first edge ≤ sample ≤ last edge on every binned axis,
e.g. `rmin = 0`), the unweighted histogram count summed over all cells
equals exactly the total number of ordered pair samples; and a boundary
sample landing exactly on the domain maximum is admitted by the final
bin's closed right edge.  (Without the coverage hypothesis conservation
fails: `np.histogramdd` drops any sample outside the edge range, which
happens e.g. for pairs closer than a positive `rmin` —
see `histogram_not_conserving`.) -/
theorem histogram_conservation (rows bins : List (List ℝ))
    (h : ∀ row ∈ rows, List.Forall₂ (fun es x => 2 ≤ es.length ∧
      es.headD 0 ≤ x ∧ x ≤ es.getLastD 0) bins row) :
    histTotal rows bins = rows.length ∧
    (∀ es : List ℝ, ∀ x : ℝ, 2 ≤ es.length → es.headD 0 ≤ x →
      x = es.getLastD 0 → binIdx es x = some (es.length - 2)) := by
  constructor
  · rw [histTotal_counts]
    have hfe : rows.filter (fun r => (binIdxs bins r).isSome) = rows :=
      List.filter_eq_self.mpr (fun r hr => binIdxs_isSome_of bins r (h r hr))
    rw [hfe]
  · intro es x h2 hlo hx
    unfold binIdx
    rw [if_neg (by omega),
      if_neg (by push_neg; exact ⟨hlo, le_of_eq hx⟩),
      if_pos hx]

/-- Witness for `histogram_conservation`: one 1-D sample `0` against the
single bin `[0, 1]`. -/
theorem histogram_conservation_witness :
    (∀ row ∈ [[(0 : ℝ)]], List.Forall₂ (fun (es : List ℝ) (x : ℝ) =>
      2 ≤ es.length ∧ es.headD 0 ≤ x ∧ x ≤ es.getLastD 0) [[0, 1]] row) ∧
    (histTotal [[(0 : ℝ)]] [[0, 1]] = [[(0 : ℝ)]].length ∧
      (∀ es : List ℝ, ∀ x : ℝ, 2 ≤ es.length → es.headD 0 ≤ x →
        x = es.getLastD 0 → binIdx es x = some (es.length - 2))) := by
  have hr : ∀ row ∈ [[(0 : ℝ)]], List.Forall₂ (fun (es : List ℝ) (x : ℝ) =>
      2 ≤ es.length ∧ es.headD 0 ≤ x ∧ x ≤ es.getLastD 0) [[0, 1]] row := by
    intro row hrow
    simp only [List.mem_singleton] at hrow
    subst hrow
    refine List.Forall₂.cons ?_ List.Forall₂.nil
    refine ⟨by simp, by simp, by simp⟩
  exact ⟨hr, histogram_conservation [[(0 : ℝ)]] [[0, 1]] hr⟩

/-- C8 (counterexample to the claim as stated): with `rmin = 1`,
`rmax = 2`, `nr = 2`, the radial edges are `linspace(1, 2, 3) = [1, 3/2, 2]`;
the particle pair `(0,0)`, `(1/2,0)` in a `10 × 10` box produces two
ordered samples at distance `1/2`, both below `rmin`; `np.histogramdd`
drops them, so the histogram total is `0` while the number of ordered
pair samples is `2` — binning does not conserve the sample count. -/
theorem histogram_not_conserving :
    lnorm (pairDisplacement [0, 0] [1 / 2, 0] [10, 10] 2) = 1 / 2 ∧
    linspace 1 2 3 = [1, 3 / 2, 2] ∧
    histTotal [[1 / 2], [1 / 2]] [linspace 1 2 3] = 0 ∧
    ([[(1 : ℝ) / 2], [1 / 2]] : List (List ℝ)).length = 2 := by
  have hsub : lsub [(1 : ℝ) / 2, 0] [0, 0] = [1 / 2, 0] := by
    unfold lsub
    norm_num
  have hd : ldot [(1 : ℝ) / 2, 0] [1 / 2, 0] = (1 / 2) ^ 2 := by
    unfold ldot
    norm_num
  have hnorm : lnorm [(1 : ℝ) / 2, 0] = 1 / 2 := by
    unfold lnorm
    rw [hd]
    exact Real.sqrt_sq (by norm_num)
  have hdisp : pairDisplacement [0, 0] [1 / 2, 0] [10, 10] 2 = [1 / 2, 0] := by
    unfold pairDisplacement
    rw [hsub, if_neg]
    rw [hnorm]
    norm_num
  have hlin : linspace 1 2 3 = [1, 3 / 2, 2] := by
    unfold linspace
    have h3 : List.range 3 = [0, 1, 2] := rfl
    rw [h3]
    norm_num
  have hbin : binIdx [1, 3 / 2, 2] (1 / 2) = none := by
    unfold binIdx
    rw [if_neg (by simp), if_pos]
    left
    have hh : ([(1 : ℝ), 3 / 2, 2]).headD 0 = 1 := rfl
    rw [hh]
    norm_num
  have hbins : binIdxs [[1, 3 / 2, 2]] [1 / 2] = none := by
    unfold binIdxs
    rw [hbin]
  have hno : ∀ cell : List ℕ, ¬ binIdxs [[(1 : ℝ), 3 / 2, 2]] [1 / 2] = some cell := by
    intro cell h
    rw [hbins] at h
    exact Option.noConfusion h
  have hcount : ∀ cell : List ℕ, histCount [[1 / 2], [1 / 2]] [[1, 3 / 2, 2]] cell = 0 := by
    intro cell
    unfold histCount
    rw [List.filter_cons_of_neg (by simpa using hno cell),
      List.filter_cons_of_neg (by simpa using hno cell)]
    rfl
  refine ⟨by rw [hdisp, hnorm], hlin, ?_, by simp⟩
  rw [hlin]
  unfold histTotal
  rw [List.map_congr_left (fun c _ => hcount c)]
  simp

/-- `np.arctan2(y, x)`, via the complex argument (range `(-π, π]`). -/
def arctan2 (y x : ℝ) : ℝ := Complex.arg (Complex.ofReal x + Complex.ofReal y * Complex.I)

/-- numpy's transpose of a list of equal-length per-axis sample arrays
into sample rows (`np.atleast_2d(sample).T` inside `histogramdd`). -/
def transposeAx (cols : List (List ℝ)) : List (List ℝ) :=
  (List.range (cols.headD []).length).map (fun t => cols.map (fun c => c.getD t 0))

/-- Reinsert the axes squeezed out of the volume grid (`np.squeeze`):
an un-binned axis contributes index `0`, a binned axis consumes the next
cell coordinate. -/
def expandCell : List Bool → List ℕ → List ℕ
  | [], _ => []
  | f :: fs, cs => if f then cs.headD 0 :: expandCell fs cs.tail else 0 :: expandCell fs cs

namespace ParticleCloud

/-- `_get_pairs(coords, boxsize, rmax)` from particle_cloud.py: the
external `cKDTree.query_pairs` result (`qp`, unordered pairs `i < j`)
doubled into both orderings. -/
def get_pairs (qp : List (List ℝ) → List ℝ → ℝ → List (ℕ × ℕ))
    (coords : List (List ℝ)) (boxsize : List ℝ) (rmax : ℝ) : List (ℕ × ℕ) :=
  double_pairs (qp coords boxsize rmax)

/-- `_get_displacements(r, p, pairs, boxsize, rmax, nr, nphi, ntheta)` from
particle_cloud.py.  `rotate = (p.shape == r.shape)` is modelled by length
equality (orientations absent is `np.array([])`, never matching a
nonempty positions array).  Each returned buffer is the per-pair value
when its axis is binned (`n > 1`) and the placeholder `[0.]`
(`np.array([0.])`) otherwise. -/
def get_displacements (positions orientations : List (List ℝ))
    (pairs : List (ℕ × ℕ)) (boxsize : List ℝ) (rmax : ℝ)
    (nr nphi ntheta : ℕ) : List ℝ × List ℝ × List ℝ :=
  let ndim := (positions.headD []).length
  let disp := fun (pr : ℕ × ℕ) =>
    let r_ij0 := pairDisplacement (positions.getD pr.1 [])
      (positions.getD pr.2 []) boxsize rmax
    if orientations.length = positions.length then
      let p0 := orientations.getD pr.1 []
      let p_i := p0.map (fun x => x / lnorm p0)
      matvecL (rotation ndim p_i) r_ij0
    else r_ij0
  let rnorm := if 1 < nr then pairs.map (fun pr => lnorm (disp pr)) else [0]
  let phi := if 1 < nphi then
    pairs.map (fun pr => arctan2 ((disp pr).getD 1 0) ((disp pr).getD 0 0)) else [0]
  let theta := if 1 < ntheta then
    pairs.map (fun pr => Real.arccos ((disp pr).getD 2 0 / lnorm (disp pr))) else [0]
  (rnorm, phi, theta)

/-- `_get_distribution(r, phi, theta, N, boxsize, r_n, phi_m, theta_l)`
from particle_cloud.py: keep the axes whose sample buffer has more than
one entry, bin with `np.histogramdd`, and scale by `N * vol * density`.
`histogramdd` receives a list of per-axis sample arrays; numpy takes the
sample dimension `D` from `np.atleast_2d(sample).T` (so `D = 1` for an
empty list) and raises `ValueError` when `len(bins) ≠ D` — that check is
the `Except.error` path. -/
def get_distribution (rs phis thetas : List ℝ) (N : ℝ) (boxsize : List ℝ)
    (r_n phi_m theta_l : List ℝ) : Except String (List ℕ → ℝ) :=
  let sb := ([(rs, r_n), (phis, phi_m), (thetas, theta_l)]).filter
    (fun p => 1 < p.1.length)
  let samples := sb.map (fun p => p.1)
  let bins := sb.map (fun p => p.2)
  let D := if samples.length = 0 then 1 else samples.length
  if bins.length ≠ D then
    Except.error "The dimension of bins must be equal to the dimension of the sample x."
  else
    let rows := transposeAx samples
    let cnt := histCount rows bins
    let ndim := boxsize.length
    let density := N / boxsize.prod
    let flags := [decide (1 < rs.length), decide (1 < phis.length), decide (1 < thetas.length)]
    Except.ok (fun cell =>
      let full := expandCell flags cell
      let vol := get_volume cnt (fun k => r_n.getD k 0) (fun k => phi_m.getD k 0)
        (fun k => theta_l.getD k 0) ndim (full.getD 0 0) (full.getD 1 0) (full.getD 2 0)
      (cnt cell : ℝ) / (N * vol * density))

/-- `sdf(positions, boxsize, orientations, rmin, rmax, nr, nphi, ntheta)`
from particle_cloud.py, with the external `query_pairs` as the parameter
`qp`.  The python call mutates `positions` in place through
`_impose_pbc`; the first component of the result is the final state of
the caller's positions array (the original array on the eager shape
checks, which fire before `_impose_pbc`).  `nphi`/`ntheta` carry the
python `None` defaults already resolved to `1` (`nphi = 1 if nphi is
None else nphi`); `ntheta` is additionally forced to `1` in 2D. -/
def sdf (qp : List (List ℝ) → List ℝ → ℝ → List (ℕ × ℕ))
    (positions : List (List ℝ)) (boxsize : List ℝ)
    (orientations : Option (List (List ℝ))) (rmin rmax : ℝ)
    (nr nphi ntheta : ℕ) :
    List (List ℝ) × Except String ((List ℕ → ℝ) × List ℝ × List ℝ × List ℝ) :=
  let N := positions.length
  let ndim := (positions.headD []).length
  if ndim ≠ 2 ∧ ndim ≠ 3 then
    (positions, Except.error "Dimension of space must be 2 or 3")
  else if orientations.any (fun o => decide (o.length ≠ N)) then
    (positions, Except.error "Shape of orientations array must match positions array")
  else
    let ors := match orientations with | some o => o | none => []
    let ntheta2 := if ndim = 2 then 1 else ntheta
    let pos2 := impose_pbc boxsize positions
    let pairs := get_pairs qp pos2 boxsize rmax
    let d := get_displacements pos2 ors pairs boxsize rmax nr nphi ntheta2
    let r_n := linspace rmin rmax (nr + 1)
    let phi_m := (linspace 0 1 (nphi + 1)).map (fun x => 2 * Real.pi * x - Real.pi)
    let theta_l := (linspace 0 1 (ntheta2 + 1)).map (fun x => Real.pi * x)
    (pos2, (get_distribution d.1 d.2.1 d.2.2 N boxsize r_n phi_m theta_l).map
      (fun g => (g, r_n.dropLast, phi_m.dropLast, theta_l.dropLast)))

end ParticleCloud

namespace ParticleCorrelations

/-- `_get_displacements(rbuff, wbuff, pairs, r, w, z, p, boxsize, rmax,
nr, nphi, ntheta)` from particle_correlations.py.  The buffer layout
`index = idx1 + nthreads*idx2` (second block with the pair reversed) is
the `double_pairs` order.  Each sample row holds, in order, the entries
for the axes with `n > 1`; `wbuff` is filled only when
`weights.shape[0] > 1`. -/
def get_displacements (positions weights : List (List ℝ)) (z : ℤ)
    (orientations : List (List ℝ)) (pairs : List (ℕ × ℕ))
    (boxsize : List ℝ) (rmax : ℝ) (nr nphi ntheta : ℕ) :
    List (List ℝ) × List ℝ :=
  let disp := fun (pr : ℕ × ℕ) =>
    let r_ij0 := pairDisplacement (positions.getD pr.1 [])
      (positions.getD pr.2 []) boxsize rmax
    if orientations.length = positions.length then
      let p0 := orientations.getD pr.1 []
      let p_i := p0.map (fun x => x / lnorm p0)
      matvecL (rotation_matrix p_i) r_ij0
    else r_ij0
  let rows := (double_pairs pairs).map (fun pr =>
    let r_ij := disp pr
    let nrm := lnorm r_ij
    (if 1 < nr then [nrm] else []) ++
    (if 1 < nphi then [arctan2 (r_ij.getD 1 0) (r_ij.getD 0 0)] else []) ++
    (if 1 < ntheta then [Real.arccos (r_ij.getD 2 0 / nrm)] else []))
  let wbuff := if 1 < weights.length then
    (double_pairs pairs).map (fun pr =>
      (ldot (weights.getD pr.1 []) (weights.getD pr.2 [])) ^ z)
    else ([] : List ℝ)
  (rows, wbuff)

/-- `_get_distribution(rij, wiwj, N, boxsize, r_n, phi_m, theta_l)` from
particle_correlations.py: bins are the edge arrays with more than 2
entries; `rij` is an `(nsamples, ncoords)` array, so numpy's sample
dimension is the row length; the histogram is weighted by `wiwj` when
`wiwj.size > 1`. -/
def get_distribution (rij : List (List ℝ)) (wiwj : List ℝ) (N : ℝ)
    (boxsize : List ℝ) (r_n phi_m theta_l : List ℝ) :
    Except String (List ℕ → ℝ) :=
  let bins := ([r_n, phi_m, theta_l]).filter (fun b => 2 < b.length)
  let D := (rij.headD []).length
  if bins.length ≠ D then
    Except.error "The dimension of bins must be equal to the dimension of the sample x."
  else
    let cnt : List ℕ → ℝ :=
      if 1 < wiwj.length then
        fun cell => (((rij.zip wiwj).filter
          (fun rw => binIdxs bins rw.1 = some cell)).map (fun rw => rw.2)).sum
      else fun cell => (histCount rij bins cell : ℝ)
    let ndim := boxsize.length
    let density := N / boxsize.prod
    let flags := [decide (2 < r_n.length), decide (2 < phi_m.length), decide (2 < theta_l.length)]
    Except.ok (fun cell =>
      let full := expandCell flags cell
      let vol := get_volume cnt (fun k => r_n.getD k 0) (fun k => phi_m.getD k 0)
        (fun k => theta_l.getD k 0) ndim (full.getD 0 0) (full.getD 1 0) (full.getD 2 0)
      cnt cell / (N * vol * density))

/-- `corr(positions, boxsize, weights, z, orientations, rmin, rmax, nr,
nphi, ntheta)` from particle_correlations.py, with the external
`query_pairs` as the parameter `qp`.  As in `sdf`, the first component is
the final state of the caller's positions array.  Absent weights and
orientations are the sentinel `np.zeros((1, ndim))`. -/
def corr (qp : List (List ℝ) → List ℝ → ℝ → List (ℕ × ℕ))
    (positions : List (List ℝ)) (boxsize : List ℝ)
    (weights : Option (List (List ℝ))) (z : ℤ)
    (orientations : Option (List (List ℝ))) (rmin rmax : ℝ)
    (nr nphi ntheta : ℕ) :
    List (List ℝ) × Except String ((List ℕ → ℝ) × List ℝ × List ℝ × List ℝ) :=
  let N := positions.length
  let ndim := (positions.headD []).length
  if ndim ≠ 2 ∧ ndim ≠ 3 then
    (positions, Except.error "Dimension of space must be 2 or 3")
  else if orientations.any (fun o => decide (o.length ≠ N)) then
    (positions, Except.error "Shape of orientations must match positions array")
  else if weights.any (fun w => decide (w.length ≠ N)) then
    (positions, Except.error "Shape of weights must match positions array")
  else
    let ors := match orientations with
      | some o => o
      | none => [List.replicate ndim 0]
    let ws := match weights with
      | some w => w
      | none => [List.replicate ndim 0]
    let nr2 := if nr < 1 then 1 else nr
    let nphi2 := if nphi < 1 then 1 else nphi
    let ntheta2 := if ntheta < 1 ∨ ndim = 2 then 1 else ntheta
    let pos2 := impose_pbc boxsize positions
    let pairs := qp pos2 boxsize rmax
    if pairs.length = 0 then
      (pos2, Except.error "Counted 0 pairs. Try increasing rmax")
    else
      let d := get_displacements pos2 ws z ors pairs boxsize rmax nr2 nphi2 ntheta2
      let r_n := linspace rmin rmax (nr2 + 1)
      let phi_m := (linspace 0 1 (nphi2 + 1)).map (fun x => 2 * Real.pi * x - Real.pi)
      let theta_l := (linspace 0 1 (ntheta2 + 1)).map (fun x => Real.pi * x)
      (pos2, (get_distribution d.1 d.2 N boxsize r_n phi_m theta_l).map
        (fun g => (g, r_n.dropLast, phi_m.dropLast, theta_l.dropLast)))

end ParticleCorrelations

lemma cloud_get_displacements_empty (positions orientations : List (List ℝ))
    (boxsize : List ℝ) (rmax : ℝ) (nr nphi ntheta : ℕ) :
    (ParticleCloud.get_displacements positions orientations [] boxsize rmax
      nr nphi ntheta).1.length ≤ 1 ∧
    (ParticleCloud.get_displacements positions orientations [] boxsize rmax
      nr nphi ntheta).2.1.length ≤ 1 ∧
    (ParticleCloud.get_displacements positions orientations [] boxsize rmax
      nr nphi ntheta).2.2.length ≤ 1 := by
  unfold ParticleCloud.get_displacements
  dsimp only
  refine ⟨?_, ?_, ?_⟩ <;> split_ifs <;> simp

lemma cloud_get_distribution_small_err (rs phis thetas : List ℝ) (N : ℝ)
    (boxsize r_n phi_m theta_l : List ℝ)
    (h1 : rs.length ≤ 1) (h2 : phis.length ≤ 1) (h3 : thetas.length ≤ 1) :
    ∃ msg, ParticleCloud.get_distribution rs phis thetas N boxsize
      r_n phi_m theta_l = Except.error msg := by
  unfold ParticleCloud.get_distribution
  dsimp only
  have hf : ([(rs, r_n), (phis, phi_m), (thetas, theta_l)]).filter
      (fun p => 1 < p.1.length) = [] := by
    rw [List.filter_eq_nil_iff]
    intro p hp
    simp only [List.mem_cons, List.not_mem_nil, or_false] at hp
    rcases hp with h | h | h <;> subst h <;> simp <;> omega
  rw [hf]
  refine ⟨"The dimension of bins must be equal to the dimension of the sample x.", ?_⟩
  rw [if_pos (by simp)]

/-- C7: on any valid input on which the k-d tree finds zero pairs within
`rmax`, both entry points fail with a catchable error before producing
any grid: `corr` raises `ValueError("Counted 0 pairs. Try increasing
rmax")` explicitly, and `sdf` — which has no explicit pair-count check —
raises `ValueError` from inside `np.histogramdd` (every sample buffer
then has at most one entry, so the sample list is empty and numpy's
dimension check `len(bins) != D` fires). -/
theorem zero_pairs_error
    (qp : List (List ℝ) → List ℝ → ℝ → List (ℕ × ℕ))
    (positions : List (List ℝ)) (boxsize : List ℝ)
    (weights orientations : Option (List (List ℝ))) (z : ℤ)
    (rmin rmax : ℝ) (nr nphi ntheta : ℕ)
    (hdim : (positions.headD []).length = 2 ∨ (positions.headD []).length = 3)
    (ho : ∀ o, orientations = some o → o.length = positions.length)
    (hw : ∀ w, weights = some w → w.length = positions.length)
    (hq : qp (impose_pbc boxsize positions) boxsize rmax = []) :
    (ParticleCorrelations.corr qp positions boxsize weights z orientations
      rmin rmax nr nphi ntheta).2 =
      Except.error "Counted 0 pairs. Try increasing rmax" ∧
    ∃ msg, (ParticleCloud.sdf qp positions boxsize orientations
      rmin rmax nr nphi ntheta).2 = Except.error msg := by
  have hdim2 : ¬ ((positions.headD []).length ≠ 2 ∧
      (positions.headD []).length ≠ 3) := by
    rcases hdim with h | h <;> rw [h] <;> norm_num
  have horr : ¬ (orientations.any
      (fun o => decide (o.length ≠ positions.length)) = true) := by
    cases orientations with
    | none => simp
    | some o => simp [ho o rfl]
  have hwr : ¬ (weights.any
      (fun w => decide (w.length ≠ positions.length)) = true) := by
    cases weights with
    | none => simp
    | some w => simp [hw w rfl]
  constructor
  · unfold ParticleCorrelations.corr
    dsimp only
    rw [if_neg hdim2, if_neg horr, if_neg hwr, hq]
    simp
  · unfold ParticleCloud.sdf
    dsimp only
    rw [if_neg hdim2, if_neg horr]
    have hpairs : ParticleCloud.get_pairs qp (impose_pbc boxsize positions)
        boxsize rmax = [] := by
      unfold ParticleCloud.get_pairs double_pairs
      rw [hq]
      rfl
    rw [hpairs]
    set ors := (match orientations with | some o => o | none => []) with hors
    set nt2 := (if (positions.headD []).length = 2 then 1 else ntheta) with hnt
    obtain ⟨msg, hmsg⟩ := cloud_get_distribution_small_err
      (ParticleCloud.get_displacements (impose_pbc boxsize positions) ors []
        boxsize rmax nr nphi nt2).1
      (ParticleCloud.get_displacements (impose_pbc boxsize positions) ors []
        boxsize rmax nr nphi nt2).2.1
      (ParticleCloud.get_displacements (impose_pbc boxsize positions) ors []
        boxsize rmax nr nphi nt2).2.2
      positions.length boxsize
      (linspace rmin rmax (nr + 1))
      ((linspace 0 1 (nphi + 1)).map (fun x => 2 * Real.pi * x - Real.pi))
      ((linspace 0 1 (nt2 + 1)).map (fun x => Real.pi * x))
      (cloud_get_displacements_empty _ _ _ _ _ _ _).1
      (cloud_get_displacements_empty _ _ _ _ _ _ _).2.1
      (cloud_get_displacements_empty _ _ _ _ _ _ _).2.2
    rw [hmsg]
    exact ⟨msg, rfl⟩

/-- Witness for `zero_pairs_error`: two distant particles in a 2D box
with an empty k-d tree answer. -/
theorem zero_pairs_error_witness :
    ((([[(0 : ℝ), 0]] : List (List ℝ)).headD []).length = 2 ∨
      (([[(0 : ℝ), 0]] : List (List ℝ)).headD []).length = 3) ∧
    ((ParticleCorrelations.corr (fun _ _ _ => []) [[0, 0]] [1, 1] none 1 none
        0 1 100 1 1).2 = Except.error "Counted 0 pairs. Try increasing rmax" ∧
      ∃ msg, (ParticleCloud.sdf (fun _ _ _ => []) [[0, 0]] [1, 1] none
        0 1 100 1 1).2 = Except.error msg) :=
  ⟨by norm_num,
    zero_pairs_error (fun _ _ _ => []) [[0, 0]] [1, 1] none none 1 0 1 100 1 1
      (by norm_num) (fun o ho => by cases ho) (fun w hw => by cases hw) rfl⟩

/-- C10 (amended): `corr` and `sdf` read `orientations` and `weights`
without writing to them, but wrap the caller's `positions` array in
place through `_impose_pbc`; the positions array is returned unchanged
exactly when every coordinate already lies in `[0, boxsize]` per axis
(then both wrap loops are no-ops). -/
theorem inputs_unchanged_when_in_box
    (qp : List (List ℝ) → List ℝ → ℝ → List (ℕ × ℕ))
    (positions : List (List ℝ)) (boxsize : List ℝ)
    (weights orientations : Option (List (List ℝ))) (z : ℤ)
    (rmin rmax : ℝ) (nr nphi ntheta : ℕ)
    (hin : ∀ p ∈ positions, ∀ i, i < boxsize.length → i < p.length →
      0 ≤ p.getD i 0 ∧ p.getD i 0 ≤ boxsize.getD i 0) :
    (ParticleCorrelations.corr qp positions boxsize weights z orientations
      rmin rmax nr nphi ntheta).1 = positions ∧
    (ParticleCloud.sdf qp positions boxsize orientations
      rmin rmax nr nphi ntheta).1 = positions := by
  have him := impose_pbc_id boxsize positions hin
  constructor
  · unfold ParticleCorrelations.corr
    dsimp only
    split_ifs <;> simp [him]
  · unfold ParticleCloud.sdf
    dsimp only
    split_ifs <;> simp [him]

/-- Witness for `inputs_unchanged_when_in_box`: a single particle at the
origin of the unit box. -/
theorem inputs_unchanged_when_in_box_witness :
    (∀ p ∈ [[(0 : ℝ), 0]], ∀ i, i < ([1, 1] : List ℝ).length → i < p.length →
      0 ≤ p.getD i 0 ∧ p.getD i 0 ≤ ([1, 1] : List ℝ).getD i 0) ∧
    ((ParticleCorrelations.corr (fun _ _ _ => []) [[0, 0]] [1, 1] none 1 none
        0 1 100 1 1).1 = [[0, 0]] ∧
      (ParticleCloud.sdf (fun _ _ _ => []) [[0, 0]] [1, 1] none
        0 1 100 1 1).1 = [[0, 0]]) := by
  have hin : ∀ p ∈ [[(0 : ℝ), 0]], ∀ i, i < ([1, 1] : List ℝ).length →
      i < p.length → 0 ≤ p.getD i 0 ∧ p.getD i 0 ≤ ([1, 1] : List ℝ).getD i 0 := by
    intro p hp i hi1 hi2
    simp only [List.mem_singleton] at hp
    subst hp
    simp only [List.length_cons, List.length_nil] at hi1
    interval_cases i <;> norm_num
  exact ⟨hin, inputs_unchanged_when_in_box (fun _ _ _ => []) [[0, 0]] [1, 1]
    none none 1 0 1 100 1 1 hin⟩

lemma impose_pbc1_neg_one : impose_pbc1 2 (-1 : ℝ) = 1 := by
  unfold impose_pbc1
  rw [wrapLow]
  rw [dif_pos (⟨by norm_num, by norm_num⟩ : (0 : ℝ) < 2 ∧ (-1 : ℝ) < 0)]
  have h12 : (-1 : ℝ) + 2 = 1 := by norm_num
  rw [h12, wrapLow_of_nonneg 2 1 (by norm_num), wrapHigh_of_le 2 1 (by norm_num)]

/-- C10 (counterexample to the claim as stated): calling `corr` on the
position `(-1, 1/2)` in a `2 × 2` box leaves the caller's positions
array holding `(1, 1/2)` — `_impose_pbc` wrapped it in place — even
though the call then fails with zero pairs. -/
theorem corr_mutates_positions :
    (ParticleCorrelations.corr (fun _ _ _ => []) [[-1, 1 / 2]] [2, 2] none 1 none
      0 1 100 1 1).1 = [[1, 1 / 2]] ∧
    ([[(1 : ℝ), 1 / 2]] : List (List ℝ)) ≠ [[-1, 1 / 2]] := by
  have h2 : impose_pbc1 2 ((2 : ℝ)⁻¹) = (2 : ℝ)⁻¹ :=
    impose_pbc1_id 2 _ (by norm_num) (by norm_num)
  have him : impose_pbc [2, 2] [[-1, 1 / 2]] = [[1, 1 / 2]] := by
    unfold impose_pbc
    simp [impose_pbc_vec, impose_pbc1_neg_one, h2]
  constructor
  · unfold ParticleCorrelations.corr
    dsimp only
    rw [if_neg (by norm_num), if_neg (by simp), if_neg (by simp), if_pos (by simp)]
    exact him
  · intro h
    injection h with ha _
    injection ha with hc _
    norm_num at hc

end SpatialStats
